import Mathlib

/-!
Verification of the schedule bot's core logic (`src/main.py`).

Python strings are modelled as `List Char`; Python `int` as `Int`.
Each definition below is a direct translation of the function of the
same name in `src/main.py` (leading underscores of Python names are
dropped where Lean requires it).
-/

/-- Models Python `str.strip()` (whitespace at both ends removed). -/
def pyStrip (s : List Char) : List Char :=
  ((s.dropWhile Char.isWhitespace).reverse.dropWhile Char.isWhitespace).reverse

/-- Models Python `str.lower()` on the alphabets this program uses
(ASCII Latin and basic Cyrillic, including Ё). -/
def pyLowerChar (c : Char) : Char :=
  if 'A' ≤ c ∧ c ≤ 'Z' then Char.ofNat (c.toNat + 32)
  else if c = 'Ё' then 'ё'
  else if 'А' ≤ c ∧ c ≤ 'Я' then Char.ofNat (c.toNat + 32)
  else c

def pyLower (s : List Char) : List Char := s.map pyLowerChar

/-- Auxiliary for `splitWS`: accumulates the current word (reversed). -/
def splitWSAux : List Char → List Char → List (List Char)
  | [], acc => if acc = [] then [] else [acc.reverse]
  | c :: cs, acc =>
    if c.isWhitespace then
      if acc = [] then splitWSAux cs [] else acc.reverse :: splitWSAux cs []
    else splitWSAux cs (c :: acc)

/-- Models Python `str.split()` (split on whitespace runs, no empty parts). -/
def splitWS (s : List Char) : List (List Char) := splitWSAux s []

def splitOnCommaAux : List Char → List Char → List (List Char)
  | [], acc => [acc.reverse]
  | c :: cs, acc =>
    if c = ',' then acc.reverse :: splitOnCommaAux cs []
    else splitOnCommaAux cs (c :: acc)

/-- Models Python `str.split(",")` (keeps empty parts). -/
def splitOnComma (s : List Char) : List (List Char) := splitOnCommaAux s []

/-- Index of the first occurrence of `sep` as a substring (Python `str.find`). -/
def findSubIdx (sep : List Char) : List Char → Option Nat
  | [] => if sep = [] then some 0 else none
  | c :: t =>
    if sep.isPrefixOf (c :: t) then some 0
    else (findSubIdx sep t).map (· + 1)

/-- Models Python `s.split(sep, 1)[1]`: the text after the first occurrence
of `sep`.  The source indexes `[1]` only when `sep` is a whitespace token of
`s`, so the occurrence always exists there; the `none` case (where Python
would raise `IndexError`) is mapped to `[]`. -/
def pySplit1After (s sep : List Char) : List Char :=
  match findSubIdx sep s with
  | some i => s.drop (i + sep.length)
  | none => []

/-- Numeric value of a digit string (Python `int` on matched `\d+` groups). -/
def digitsVal (ds : List Char) : Int :=
  ds.foldl (fun n c => n * 10 + ((c.toNat : Int) - 48)) 0

/-- Models Python `int(tok)`: optional sign then decimal digits, else error. -/
def pyInt (tok : List Char) : Option Int :=
  match pyStrip tok with
  | '-' :: ds => if ds ≠ [] ∧ ds.all Char.isDigit then some (-(digitsVal ds)) else none
  | '+' :: ds => if ds ≠ [] ∧ ds.all Char.isDigit then some (digitsVal ds) else none
  | ds => if ds ≠ [] ∧ ds.all Char.isDigit then some (digitsVal ds) else none

/-- Models `str(n)` for Python ints. -/
def intStr (n : Int) : List Char := (toString n).toList

/-- The seven weekday names (`RU_WEEKDAYS` in the source). -/
def RU_WEEKDAYS : List (List Char) :=
  ["понедельник".toList, "вторник".toList, "среда".toList, "четверг".toList,
   "пятница".toList, "суббота".toList, "воскресенье".toList]

/-- The fixed slot numbers (keys of `SLOTS` in the source). -/
def slotKeys : List Int := [1, 2, 3, 4]

/-- Match of `num_re = ^\s*(\d+)\s*$` returning the integer value. -/
def matchNum (p : List Char) : Option Int :=
  let p1 := p.dropWhile Char.isWhitespace
  let ds := p1.takeWhile Char.isDigit
  if ds = [] then none
  else if (p1.drop ds.length).dropWhile Char.isWhitespace = [] then some (digitsVal ds)
  else none

/-- Match of `range_re = ^\s*(\d+)\s*-\s*(\d+)\s*$` returning both values. -/
def matchRange (p : List Char) : Option (Int × Int) :=
  let p1 := p.dropWhile Char.isWhitespace
  let d1 := p1.takeWhile Char.isDigit
  if d1 = [] then none
  else
    match (p1.drop d1.length).dropWhile Char.isWhitespace with
    | '-' :: rest =>
      let p3 := rest.dropWhile Char.isWhitespace
      let d2 := p3.takeWhile Char.isDigit
      if d2 = [] then none
      else if (p3.drop d2.length).dropWhile Char.isWhitespace = [] then
        some (digitsVal d1, digitsVal d2)
      else none
    | _ => none

/-- Models `list(range(a, b + 1))`. -/
def intRange (a b : Int) : List Int :=
  (List.range (b + 1 - a).toNat).map (fun i : Nat => a + (i : Int))

/-- Models `list(range(1, max_week + 1))`. -/
def rangeList (max_week : Int) : List Int :=
  (List.range max_week.toNat).map (fun i : Nat => (i : Int) + 1)

/-- Models Python `set.add`: the `weeks` set is a duplicate-free list. -/
def setAdd (w : Int) (s : List Int) : List Int :=
  if w ∈ s then s else w :: s

/-- The inner loop of `parse_weeks` for a matched range token:
`for w in range(a, b + 1): if 1 <= w <= max_week: weeks.add(w)`. -/
def addRange (max_week : Int) (s : List Int) (a b : Int) : List Int :=
  (intRange a b).foldl (fun t w => if 1 ≤ w ∧ w ≤ max_week then setAdd w t else t) s

/-- One iteration of the `for part in spec.split(",")` loop of `parse_weeks`. -/
def parseToken (max_week : Int) (s : List Int) (part : List Char) : List Int :=
  let p := pyStrip part
  if p = [] then s
  else
    match matchRange p with
    | some (a, b) =>
      let a2 := if a > b then b else a
      let b2 := if a > b then a else b
      addRange max_week s a2 b2
    | none =>
      match matchNum p with
      | some w => if 1 ≤ w ∧ w ≤ max_week then setAdd w s else s
      | none => s

/-- `parse_weeks(spec, max_week)` from the source; `sorted` on a set of ints
is modelled by `List.insertionSort (· ≤ ·)` on the duplicate-free list. -/
def parse_weeks (spec : List Char) (max_week : Int) : List Int :=
  if spec = [] then rangeList max_week
  else
    let weeks := (splitOnComma spec).foldl (parseToken max_week) []
    if weeks = [] then rangeList max_week else weeks.insertionSort (· ≤ ·)

/-- `detect_parity(token)` from the source. -/
def detect_parity (token : List Char) : Option (List Char) :=
  let t := (pyLower token).filter (· ≠ ' ')
  if t = "н/н".toList ∨ t = "н-н".toList ∨ t = "нн".toList ∨ t = "odd".toList then
    some ("odd".toList)
  else if t = "ч/н".toList ∨ t = "ч-н".toList ∨ t = "чн".toList ∨ t = "even".toList then
    some ("even".toList)
  else none

/-- `week_number(today, start)` from the source; dates are modelled as their
day ordinals, so `(today - start).days` is `today - start`, and Python `//`
is floor division `Int.fdiv`. -/
def week_number (today start : Int) : Int :=
  if today - start ≥ 0 then (today - start).fdiv 7 + 1 else 0

/-- The `Lesson` dataclass from the source. -/
structure Lesson where
  title : List Char
  room : List Char
  weeks_spec : List Char
  weeks : List Int
  parity : Option (List Char)
deriving DecidableEq

/-- `lesson_matches_week(lesson, wk)` from the source. -/
def lesson_matches_week (lesson : Lesson) (wk : Int) : Bool :=
  if wk ≤ 0 then false
  else if wk ∉ lesson.weeks then false
  else if lesson.parity = some ("odd".toList) ∧ wk % 2 = 0 then false
  else if lesson.parity = some ("even".toList) ∧ wk % 2 = 1 then false
  else true

/-! Room validator: `_normalize_room_token`, `_parse_room_from_tokens`. -/

def msgRoomMissing : List Char :=
  "Не указана аудитория. Разрешены только цифры, \x27д/о\x27 или \x27с/зал\x27.".toList

def msgRoomOneWord : List Char :=
  "Аудитория должна быть одним словом: цифры, \x27д/о\x27 или \x27с/зал\x27.".toList

def msgRoomInvalid : List Char :=
  "Недопустимая аудитория. Разрешены только цифры, \x27д/о\x27 или \x27с/зал\x27.".toList

/-- `_normalize_room_token` from the source:
`tok.strip().lower().replace("\\", "/")`. -/
def normalize_room_token (tok : List Char) : List Char :=
  (pyLower (pyStrip tok)).map (fun c => if c = '\\' then '/' else c)

/-- `_parse_room_from_tokens(tokens, start_idx)` from the source; the
`(room, err)` tuple is modelled as `Except err room`.  The `ROOM_CANON`
dictionary maps both of its keys to themselves, so the lookup is the two
equality branches; `ROOM_DIGITS_RE` is `^\d{1,5}$`. -/
def parse_room_from_tokens (tokens : List (List Char)) (start_idx : Nat) :
    Except (List Char) (List Char) :=
  if tokens.length ≤ start_idx then .error msgRoomMissing
  else if (tokens.drop start_idx).length ≠ 1 then .error msgRoomOneWord
  else
    let raw := normalize_room_token (tokens.getD start_idx [])
    if raw = "д/о".toList then .ok ("д/о".toList)
    else if raw = "с/зал".toList then .ok ("с/зал".toList)
    else if 1 ≤ raw.length ∧ raw.length ≤ 5 ∧ raw.all Char.isDigit then .ok raw
    else .error msgRoomInvalid

/-! The `parse_add_lesson_args` command grammar. -/

def msgMin4 : List Char :=
  "Минимум 4 части: <группа> <день> <слот> <Название(недели)> ...".toList

def msgDays : List Char :=
  ("День должен быть одним из: понедельник, вторник, среда, четверг, пятница, " ++
   "суббота, воскресенье").toList

def msgSlotNumber : List Char := "Слот должен быть числом 1..4".toList

def msgSlotRange : List Char := "Слот должен быть 1..4".toList

def msgBrackets : List Char :=
  "Не нашёл скобки с неделями. Пример: Алгебра(2-13)".toList

def msgNoRoomAfterBrackets : List Char :=
  "Не указана аудитория после скобок. Пример: ... ) 101 или ... ) н/н 101".toList

def msgNoRoomDead : List Char := "Не указана аудитория.".toList

/-- The tail-processing part of `parse_add_lesson_args` (the `if after:`
block): extracts the optional parity token and the room from the text that
follows the closing bracket. -/
def parseTail (after : List Char) :
    Except (List Char) (Option (List Char) × List Char) :=
  if after = [] then .error msgNoRoomAfterBrackets
  else
    match splitWS after with
    | [] => .error msgNoRoomDead
    | t0 :: rest =>
      match detect_parity t0 with
      | some p =>
        match parse_room_from_tokens (t0 :: rest) 1 with
        | .ok room => .ok (some p, room)
        | .error e => .error e
      | none =>
        match parse_room_from_tokens (t0 :: rest) 0 with
        | .ok room => .ok (none, room)
        | .error e => .error e

/-- The bracket scan of `parse_add_lesson_args`: first `(` and first `)` of
`tail`; yields `(title, weeks_raw, after)` or `None` when the brackets are
missing or reversed (`l == -1 or r == -1 or r < l`). -/
def splitBrackets (tail : List Char) :
    Option (List Char × List Char × List Char) :=
  match tail.findIdx? (· = '('), tail.findIdx? (· = ')') with
  | some l, some r =>
    if r < l then none
    else some (pyStrip (tail.take l),
               pyStrip ((tail.drop (l + 1)).take (r - (l + 1))),
               pyStrip (tail.drop (r + 1)))
  | _, _ => none

/-- The tail reconstruction of `parse_add_lesson_args`:
`tail = args.split(parts[2], 1)[1].strip()` followed by the
`tail.startswith(str(slot))` prefix strip. -/
def addLessonTail (args slotTok : List Char) (slot : Int) : List Char :=
  let tail0 := pyStrip (pySplit1After args slotTok)
  let ss := intStr slot
  if ss.isPrefixOf tail0 then pyStrip (tail0.drop ss.length) else tail0

/-- The `Lesson(...)` construction at the end of `parse_add_lesson_args`;
`weeks_raw or "1-30"` is Python truthiness on the (possibly empty) string. -/
def buildLesson (title weeks_raw : List Char) (parity : Option (List Char))
    (room : List Char) : Lesson :=
  { title := title
    room := room
    weeks_spec := if weeks_raw = [] then "1-30".toList else weeks_raw
    weeks := parse_weeks weeks_raw 30
    parity := parity }

/-- `parse_add_lesson_args(args)` from the source; the `(result, err)` pair
is modelled as `Except err (group, day, slot, lesson)`. -/
def parse_add_lesson_args (args : List Char) :
    Except (List Char) (List Char × List Char × Int × Lesson) :=
  let parts := splitWS args
  if parts.length < 4 then .error msgMin4
  else if pyLower (parts.getD 1 []) ∉ RU_WEEKDAYS then .error msgDays
  else
    match pyInt (parts.getD 2 []) with
    | none => .error msgSlotNumber
    | some slot =>
      if slot ∉ slotKeys then .error msgSlotRange
      else
        match splitBrackets (addLessonTail args (parts.getD 2 []) slot) with
        | none => .error msgBrackets
        | some (title, weeks_raw, after) =>
          match parseTail after with
          | .error e => .error e
          | .ok (parity, room) =>
            .ok (parts.getD 0 [], pyLower (parts.getD 1 []), slot,
                 buildLesson title weeks_raw parity room)

/-! Schedule store and `del_lesson`. -/

/-- The nested store `schedules[group][day][slot]`, modelled as nested
association lists with string keys (slots are keyed by `str(slot)`). -/
def DayMap : Type := List (List Char × Lesson)

def GroupMap : Type := List (List Char × DayMap)

def Schedules : Type := List (List Char × GroupMap)

def alookup {β : Type} (k : List Char) : List (List Char × β) → Option β
  | [] => none
  | (k2, v) :: rest => if k2 = k then some v else alookup k rest

def aerase {β : Type} (k : List Char) : List (List Char × β) → List (List Char × β)
  | [] => []
  | (k2, v) :: rest => if k2 = k then rest else (k2, v) :: aerase k rest

def aset {β : Type} (k : List Char) (v : β) : List (List Char × β) → List (List Char × β)
  | [] => [(k, v)]
  | (k2, w) :: rest => if k2 = k then (k, v) :: rest else (k2, w) :: aset k v rest

/-- `schedules.get(group, {}).get(day, {}).get(str(slot))`. -/
def storeLookup (st : Schedules) (g d sk : List Char) : Option Lesson :=
  (alookup g st).bind fun gd => (alookup d gd).bind fun dd => alookup sk dd

/-- `schedules.get(group, {}).get(day, {}).pop(str(slot), None)`: `none` when
the key is absent (Python's `pop` default), otherwise the store with the
slot entry removed (the inner day dict is mutated in place). -/
def storePop (st : Schedules) (g d sk : List Char) : Option Schedules :=
  match alookup g st with
  | none => none
  | some gd =>
    match alookup d gd with
    | none => none
    | some dd =>
      match alookup sk dd with
      | none => none
      | some _ => some (aset g (aset d (aerase sk dd) gd) st)

def msgDelFormat : List Char := "Формат: /del_lesson <группа> <день> <слот>".toList

def msgNotFound : List Char := "Такой пары не найдено.".toList

def msgDeleted : List Char := "🗑️ Пара удалена.".toList

/-- The argument validation of `del_lesson` (the part before the store
access); each early `return` is an error reply. -/
def del_lesson_parse (args : List Char) :
    Except (List Char) (List Char × List Char × Int) :=
  let parts := splitWS (pyStrip args)
  if parts.length < 3 then .error msgDelFormat
  else
    let group := parts.getD 0 []
    let day := pyLower (parts.getD 1 [])
    if day ∉ RU_WEEKDAYS then .error msgDays
    else
      match pyInt (parts.getD 2 []) with
      | none => .error msgSlotNumber
      | some slot =>
        if slot ∉ slotKeys then .error msgSlotNumber
        else .ok (group, day, slot)

/-- The `del_lesson` handler after the admin check: returns the reply text
and `some doc` when `save_schedules(doc)` is invoked, `none` when it is not
(so the persisted document stays as it was). -/
def del_lesson (args : List Char) (store : Schedules) :
    List Char × Option Schedules :=
  match del_lesson_parse args with
  | .error e => (e, none)
  | .ok (g, d, slot) =>
    match storePop store g d (intStr slot) with
    | none => (msgNotFound, none)
    | some st2 => (msgDeleted, some st2)

/-!
The recurrence spec's denoted weeks (claim side, for C4/C5).

`tokenDenoted` renders the claim's reading of one comma-token: a single
integer denotes itself, a `start-end` range denotes the whole interval with
a reversed range swapped, and anything else denotes nothing.  `specDenoted`
is the union over all tokens, restricted to the horizon `[1, max_week]`.
-/

def tokenDenoted (part : List Char) : Finset Int :=
  match matchRange (pyStrip part) with
  | some (a, b) => Finset.Icc (min a b) (max a b)
  | none =>
    match matchNum (pyStrip part) with
    | some n => {n}
    | none => ∅

def denotedUnion (max_week : Int) : List (List Char) → Finset Int
  | [] => ∅
  | p :: ps => (tokenDenoted p ∩ Finset.Icc 1 max_week) ∪ denotedUnion max_week ps

def specDenoted (spec : List Char) (max_week : Int) : Finset Int :=
  denotedUnion max_week (splitOnComma spec)

/-- A comma-token of the claimed shape: a single integer or an integer
range. -/
def tokenValid (part : List Char) : Bool :=
  (matchRange (pyStrip part)).isSome || (matchNum (pyStrip part)).isSome


/-- The shapes the room validator accepts: one of the two symbolic rooms or
an all-digit string of length 1..5. -/
def roomShapeOk (r : List Char) : Prop :=
  r = "д/о".toList ∨ r = "с/зал".toList ∨
    (1 ≤ r.length ∧ r.length ≤ 5 ∧ r.all Char.isDigit = true)

instance roomShapeOk.decPred : DecidablePred roomShapeOk := fun r => by
  unfold roomShapeOk
  infer_instance

example : parse_weeks ("2-4,10".toList) 30 = [2, 3, 4, 10] := by decide
example : parse_weeks ("5-2".toList) 30 = [2, 3, 4, 5] := by decide
example : parse_weeks ("abc".toList) 30 = rangeList 30 := by decide
example : parse_weeks [] 30 = rangeList 30 := by decide
example : week_number 17 3 = 3 := by decide
example : detect_parity ("Н/Н".toList) = some ("odd".toList) := by decide
example : pyInt ("2".toList) = some 2 := by decide
example : intStr 2 = ['2'] := by decide
example : parse_room_from_tokens ["Д/О".toList] 0 = .ok ("д/о".toList) := rfl
example : parse_room_from_tokens ["101а".toList] 0 = .error msgRoomInvalid := rfl
example : parse_room_from_tokens ["101".toList, "202".toList] 0 = .error msgRoomOneWord := rfl
example : parse_add_lesson_args ("ИВТ-21 понедельник 2 Алгебра(2-13) н/н 101".toList) =
    .ok ("ИВТ-21".toList, "понедельник".toList, 2,
      { title := "1 понедельник 2 Алгебра".toList, room := "101".toList,
        weeks_spec := "2-13".toList, weeks := [2, 3, 4, 5, 6, 7, 8, 9, 10, 11, 12, 13],
        parity := some ("odd".toList) }) := rfl
example : parse_add_lesson_args ("ИВТ понедельник 2 Физика() 101".toList) =
    .ok ("ИВТ".toList, "понедельник".toList, 2,
      { title := "Физика".toList, room := "101".toList,
        weeks_spec := "1-30".toList, weeks := rangeList 30,
        parity := none }) := rfl
example : del_lesson ("ИВТ понедельник 2".toList) [] = (msgNotFound, none) := rfl

/-!
## Claim theorems
-/

/-- C1. For every pair of day ordinals `(today, start)`: when
`today >= start`, `week_number today start` is the floor of the elapsed
days divided by 7, plus 1 (stated via `Nat` floor division of the
non-negative difference); when `today < start` it is 0. -/
theorem week_number_correct (today start : Int) :
    (start ≤ today →
      week_number today start = (((today - start).toNat / 7 : Nat) : Int) + 1) ∧
    (today < start → week_number today start = 0) := by
  constructor
  · intro h
    have h0 : today - start ≥ 0 := by omega
    rw [week_number, if_pos h0, Int.fdiv_eq_ediv _ (by norm_num)]
    omega
  · intro h
    rw [week_number, if_neg (by omega)]

theorem week_number_correct_witness :
    week_number 17 3 = 3 ∧ week_number 1 3 = 0 :=
  ⟨((week_number_correct 17 3).1 (by norm_num)).trans (by norm_num),
   (week_number_correct 1 3).2 (by norm_num)⟩

/-- C2. `lesson_matches_week lesson wk` is true exactly when `wk ≥ 1`,
`wk` is in the lesson's week list, and the parity constraint is met
(`"odd"` forces an odd week, `"even"` an even week, anything else imposes
nothing); in particular the result at week 0 is false for every lesson. -/
theorem lesson_matches_week_correct (lesson : Lesson) (wk : Int) :
    (lesson_matches_week lesson wk = true ↔
      (1 ≤ wk ∧ wk ∈ lesson.weeks ∧
        (lesson.parity = some ("odd".toList) → wk % 2 = 1) ∧
        (lesson.parity = some ("even".toList) → wk % 2 = 0))) ∧
    lesson_matches_week lesson 0 = false := by
  refine ⟨?_, rfl⟩
  rw [lesson_matches_week]
  by_cases h0 : wk ≤ 0
  · rw [if_pos h0]
    simp only [Bool.false_eq_true, false_iff]
    rintro ⟨hw, -⟩
    omega
  rw [if_neg h0]
  by_cases h1 : wk ∉ lesson.weeks
  · rw [if_pos h1]
    simp only [Bool.false_eq_true, false_iff]
    rintro ⟨-, hmem, -⟩
    exact h1 hmem
  rw [if_neg h1]
  by_cases h2 : lesson.parity = some ("odd".toList) ∧ wk % 2 = 0
  · rw [if_pos h2]
    simp only [Bool.false_eq_true, false_iff]
    rintro ⟨-, -, hodd, -⟩
    have := hodd h2.1
    omega
  rw [if_neg h2]
  by_cases h3 : lesson.parity = some ("even".toList) ∧ wk % 2 = 1
  · rw [if_pos h3]
    simp only [Bool.false_eq_true, false_iff]
    rintro ⟨-, -, -, heven⟩
    have := heven h3.1
    omega
  rw [if_neg h3]
  refine iff_of_true rfl ⟨by omega, not_not.mp h1, ?_, ?_⟩
  · intro hp
    have : ¬ wk % 2 = 0 := fun hm => h2 ⟨hp, hm⟩
    omega
  · intro hp
    have : ¬ wk % 2 = 1 := fun hm => h3 ⟨hp, hm⟩
    omega

theorem lesson_matches_week_correct_witness :
    lesson_matches_week
      { title := "a".toList, room := "101".toList, weeks_spec := "2-6".toList,
        weeks := [2, 4, 6], parity := some ("even".toList) } 4 = true :=
  (lesson_matches_week_correct _ 4).1.mpr (by decide)

theorem mem_intRange {a b x : Int} : x ∈ intRange a b ↔ a ≤ x ∧ x ≤ b := by
  rw [intRange, List.mem_map]
  constructor
  · rintro ⟨i, hi, rfl⟩
    rw [List.mem_range] at hi
    omega
  · rintro ⟨h1, h2⟩
    refine ⟨(x - a).toNat, ?_, by omega⟩
    rw [List.mem_range]
    omega

theorem mem_rangeList {mw x : Int} : x ∈ rangeList mw ↔ 1 ≤ x ∧ x ≤ mw := by
  rw [rangeList, List.mem_map]
  constructor
  · rintro ⟨i, hi, rfl⟩
    rw [List.mem_range] at hi
    omega
  · rintro ⟨h1, h2⟩
    refine ⟨(x - 1).toNat, ?_, by omega⟩
    rw [List.mem_range]
    omega

theorem mem_setAdd {w x : Int} {s : List Int} : x ∈ setAdd w s ↔ x = w ∨ x ∈ s := by
  rw [setAdd]
  split_ifs with h
  · constructor
    · exact Or.inr
    · rintro (rfl | hx)
      · exact h
      · exact hx
  · exact List.mem_cons

theorem nodup_setAdd {w : Int} {s : List Int} (h : s.Nodup) : (setAdd w s).Nodup := by
  rw [setAdd]
  split_ifs with hw
  · exact h
  · exact List.Nodup.cons hw h

theorem mem_guardFold (mw : Int) :
    ∀ (L : List Int) (s : List Int) (x : Int),
      x ∈ L.foldl (fun t w => if 1 ≤ w ∧ w ≤ mw then setAdd w t else t) s ↔
        x ∈ s ∨ (x ∈ L ∧ 1 ≤ x ∧ x ≤ mw) := by
  intro L
  induction L with
  | nil => simp
  | cons w L ih =>
    intro s x
    rw [List.foldl_cons, ih]
    by_cases h : 1 ≤ w ∧ w ≤ mw
    · rw [if_pos h, mem_setAdd]
      constructor
      · rintro ((rfl | hs) | ⟨hL, hb⟩)
        · exact Or.inr ⟨List.mem_cons_self _ _, h⟩
        · exact Or.inl hs
        · exact Or.inr ⟨List.mem_cons_of_mem _ hL, hb⟩
      · rintro (hs | ⟨hL, hb⟩)
        · exact Or.inl (Or.inr hs)
        · rcases List.mem_cons.mp hL with rfl | hL2
          · exact Or.inl (Or.inl rfl)
          · exact Or.inr ⟨hL2, hb⟩
    · rw [if_neg h]
      constructor
      · rintro (hs | ⟨hL, hb⟩)
        · exact Or.inl hs
        · exact Or.inr ⟨List.mem_cons_of_mem _ hL, hb⟩
      · rintro (hs | ⟨hL, hb⟩)
        · exact Or.inl hs
        · rcases List.mem_cons.mp hL with rfl | hL2
          · exact absurd hb h
          · exact Or.inr ⟨hL2, hb⟩

theorem nodup_guardFold (mw : Int) :
    ∀ (L : List Int) (s : List Int), s.Nodup →
      (L.foldl (fun t w => if 1 ≤ w ∧ w ≤ mw then setAdd w t else t) s).Nodup := by
  intro L
  induction L with
  | nil => exact fun s hs => hs
  | cons w L ih =>
    intro s hs
    rw [List.foldl_cons]
    refine ih _ ?_
    split_ifs with h
    · exact nodup_setAdd hs
    · exact hs

theorem mem_parseToken {mw x : Int} (s : List Int) (part : List Char) :
    x ∈ parseToken mw s part ↔
      x ∈ s ∨ (x ∈ tokenDenoted part ∧ 1 ≤ x ∧ x ≤ mw) := by
  rw [parseToken, tokenDenoted]
  by_cases hp : pyStrip part = []
  · rw [if_pos hp, hp]
    have h1 : matchRange [] = none := rfl
    have h2 : matchNum [] = none := rfl
    rw [h1, h2]
    simp
  rw [if_neg hp]
  cases hr : matchRange (pyStrip part) with
  | some ab =>
    obtain ⟨a, b⟩ := ab
    dsimp only
    rw [addRange, mem_guardFold]
    have hIcc : ∀ y : Int,
        y ∈ intRange (if a > b then b else a) (if a > b then a else b) ↔
          y ∈ Finset.Icc (min a b) (max a b) := by
      intro y
      rw [mem_intRange, Finset.mem_Icc, min_def, max_def]
      split_ifs <;> omega
    constructor
    · rintro (hs | ⟨hL, hb⟩)
      · exact Or.inl hs
      · exact Or.inr ⟨(hIcc x).mp hL, hb⟩
    · rintro (hs | ⟨hL, hb⟩)
      · exact Or.inl hs
      · exact Or.inr ⟨(hIcc x).mpr hL, hb⟩
  | none =>
    dsimp only
    cases hn : matchNum (pyStrip part) with
    | some w =>
      dsimp only
      by_cases hb : 1 ≤ w ∧ w ≤ mw
      · rw [if_pos hb, mem_setAdd]
        simp only [Finset.mem_singleton]
        constructor
        · rintro (rfl | hs)
          · exact Or.inr ⟨rfl, hb⟩
          · exact Or.inl hs
        · rintro (hs | ⟨rfl, -⟩)
          · exact Or.inr hs
          · exact Or.inl rfl
      · rw [if_neg hb]
        simp only [Finset.mem_singleton]
        constructor
        · exact Or.inl
        · rintro (hs | ⟨rfl, hbb⟩)
          · exact hs
          · exact absurd hbb hb
    | none => simp

theorem nodup_parseToken {mw : Int} (s : List Int) (part : List Char)
    (hs : s.Nodup) : (parseToken mw s part).Nodup := by
  rw [parseToken]
  by_cases hp : pyStrip part = []
  · rw [if_pos hp]
    exact hs
  rw [if_neg hp]
  cases hr : matchRange (pyStrip part) with
  | some ab =>
    obtain ⟨a, b⟩ := ab
    dsimp only
    rw [addRange]
    exact nodup_guardFold mw _ s hs
  | none =>
    dsimp only
    cases hn : matchNum (pyStrip part) with
    | some w =>
      dsimp only
      split_ifs with hb
      · exact nodup_setAdd hs
      · exact hs
    | none => exact hs

theorem mem_foldl_parseToken (mw : Int) :
    ∀ (parts : List (List Char)) (s : List Int) (x : Int),
      x ∈ parts.foldl (parseToken mw) s ↔ x ∈ s ∨ x ∈ denotedUnion mw parts := by
  intro parts
  induction parts with
  | nil => simp [denotedUnion]
  | cons p ps ih =>
    intro s x
    rw [List.foldl_cons, ih, mem_parseToken, denotedUnion]
    simp only [Finset.mem_union, Finset.mem_inter, Finset.mem_Icc]
    tauto

theorem nodup_foldl_parseToken (mw : Int) :
    ∀ (parts : List (List Char)) (s : List Int), s.Nodup →
      (parts.foldl (parseToken mw) s).Nodup := by
  intro parts
  induction parts with
  | nil => exact fun s hs => hs
  | cons p ps ih => exact fun s hs => ih _ (nodup_parseToken s p hs)

theorem denotedUnion_subset_Icc (mw : Int) :
    ∀ parts : List (List Char), denotedUnion mw parts ⊆ Finset.Icc 1 mw := by
  intro parts
  induction parts with
  | nil => simp [denotedUnion]
  | cons p ps ih =>
    rw [denotedUnion]
    exact Finset.union_subset (Finset.inter_subset_right) ih

theorem specDenoted_nil (mw : Int) : specDenoted [] mw = ∅ := by
  have h : tokenDenoted [] = ∅ := rfl
  show denotedUnion mw [[]] = ∅
  rw [denotedUnion, denotedUnion, h]
  simp

theorem parse_weeks_bounds (spec : List Char) (mw : Int) :
    ∀ w : Int, w ∈ parse_weeks spec mw → 1 ≤ w ∧ w ≤ mw := by
  intro w hw
  by_cases hs : spec = []
  · rw [parse_weeks, if_pos hs] at hw
    exact mem_rangeList.mp hw
  rw [parse_weeks, if_neg hs] at hw
  dsimp only at hw
  by_cases hw0 : (splitOnComma spec).foldl (parseToken mw) [] = []
  · rw [if_pos hw0] at hw
    exact mem_rangeList.mp hw
  rw [if_neg hw0, List.mem_insertionSort] at hw
  rcases (mem_foldl_parseToken mw _ _ w).mp hw with h1 | h2
  · exact absurd h1 (List.not_mem_nil w)
  · exact Finset.mem_Icc.mp (denotedUnion_subset_Icc mw _ h2)

/-- C4 (amended). For a spec made of comma-separated integer or range
tokens, as long as at least one denoted week lies within `[1, max_week]`,
`parse_weeks` returns exactly the ascending, duplicate-free enumeration of
the denoted weeks inside the horizon (reversed ranges swapped,
out-of-horizon values dropped).  When no denoted week survives, the
full-horizon fallback of C5 takes over instead. -/
theorem parse_weeks_enumerates (spec : List Char) (max_week : Int)
    (hv : ∀ p ∈ splitOnComma spec, tokenValid p = true)
    (hne : specDenoted spec max_week ≠ ∅) :
    List.Sorted (· < ·) (parse_weeks spec max_week) ∧
      ∀ w : Int, w ∈ parse_weeks spec max_week ↔ w ∈ specDenoted spec max_week := by
  have hs : spec ≠ [] := by
    rintro rfl
    exact hne (specDenoted_nil max_week)
  have hmem : ∀ x : Int, x ∈ (splitOnComma spec).foldl (parseToken max_week) [] ↔
      x ∈ specDenoted spec max_week := by
    intro x
    rw [mem_foldl_parseToken]
    simp [specDenoted]
  have hnd : ((splitOnComma spec).foldl (parseToken max_week) []).Nodup :=
    nodup_foldl_parseToken max_week _ _ List.nodup_nil
  have hwne : (splitOnComma spec).foldl (parseToken max_week) [] ≠ [] := by
    intro h0
    apply hne
    rw [Finset.eq_empty_iff_forall_not_mem]
    intro x hx
    have hx2 := (hmem x).mpr hx
    rw [h0] at hx2
    exact List.not_mem_nil x hx2
  rw [parse_weeks, if_neg hs]
  dsimp only
  rw [if_neg hwne]
  constructor
  · exact List.Sorted.lt_of_le (List.sorted_insertionSort _ _)
      ((List.perm_insertionSort _ _).nodup_iff.mpr hnd)
  · intro w
    rw [List.mem_insertionSort]
    exact hmem w

theorem parse_weeks_enumerates_witness :
    List.Sorted (· < ·) (parse_weeks ("2-4,10".toList) 30) ∧
      ∀ w : Int, w ∈ parse_weeks ("2-4,10".toList) 30 ↔
        w ∈ specDenoted ("2-4,10".toList) 30 :=
  parse_weeks_enumerates _ 30 (by decide) (by decide)

/-- C4 counterexample. As literally stated the claim fails on a spec
whose only token is valid but out of horizon: `parse_weeks "99" 30` is the
full horizon (the fallback), not the empty enumeration of the denoted
weeks inside `[1, 30]` — week 5 is returned though it is not denoted. -/
theorem parse_weeks_enumerates_ce :
    (5 : Int) ∈ parse_weeks ("99".toList) 30 ∧
      (5 : Int) ∉ specDenoted ("99".toList) 30 :=
  ⟨by decide, by decide⟩

/-- C5. Whenever no token of the spec denotes a week inside the
horizon — the spec is empty, whitespace-only, or every token is invalid or
dropped — `parse_weeks` returns the full horizon `[1, ..., max_week]` as a
normal result. -/
theorem parse_weeks_full_horizon (spec : List Char) (max_week : Int)
    (h : specDenoted spec max_week = ∅) :
    parse_weeks spec max_week = rangeList max_week := by
  by_cases hs : spec = []
  · rw [parse_weeks, if_pos hs]
  · have hw0 : (splitOnComma spec).foldl (parseToken max_week) [] = [] := by
      rw [List.eq_nil_iff_forall_not_mem]
      intro x hx
      rcases (mem_foldl_parseToken max_week _ _ x).mp hx with h1 | h2
      · exact List.not_mem_nil x h1
      · rw [show denotedUnion max_week (splitOnComma spec) =
            specDenoted spec max_week from rfl, h] at h2
        exact Finset.not_mem_empty x h2
    rw [parse_weeks, if_neg hs]
    dsimp only
    rw [if_pos hw0]

theorem parse_weeks_full_horizon_witness :
    parse_weeks ("abc".toList) 30 = rangeList 30 :=
  parse_weeks_full_horizon _ 30 (by decide)

/-!
Room validation (C7) and the trailing-tail rule (C6).
-/


theorem parse_room_ok_iff (tokens : List (List Char)) (start_idx : Nat) (r : List Char) :
    parse_room_from_tokens tokens start_idx = .ok r ↔
      ∃ t, tokens.drop start_idx = [t] ∧ r = normalize_room_token t ∧ roomShapeOk r := by
  rw [parse_room_from_tokens]
  by_cases h1 : tokens.length ≤ start_idx
  · rw [if_pos h1]
    have hd : tokens.drop start_idx = [] := List.drop_eq_nil_of_le h1
    constructor
    · intro h
      simp at h
    · rintro ⟨t, ht, -⟩
      rw [hd] at ht
      simp at ht
  rw [if_neg h1]
  by_cases h2 : (tokens.drop start_idx).length ≠ 1
  · rw [if_pos h2]
    constructor
    · intro h
      simp at h
    · rintro ⟨t, ht, -⟩
      rw [ht] at h2
      simp at h2
  rw [if_neg h2]
  obtain ⟨t, ht⟩ := List.length_eq_one.mp (not_not.mp h2)
  have hget : tokens.getD start_idx [] = t := by
    have h0 : tokens[start_idx]? = some t := by
      have h3 := List.getElem?_drop tokens start_idx 0
      rw [ht] at h3
      simpa using h3.symm
    rw [List.getD_eq_getElem?_getD, h0]
    rfl
  dsimp only
  rw [hget]
  by_cases hdo : normalize_room_token t = "д/о".toList
  · rw [if_pos hdo]
    constructor
    · intro h
      injection h with h'
      exact ⟨t, ht, by rw [← h', hdo], by rw [← h']; exact Or.inl rfl⟩
    · rintro ⟨t', ht', hr, -⟩
      rw [ht] at ht'
      injection ht' with e1
      rw [hr, ← e1, hdo]
  rw [if_neg hdo]
  by_cases hsz : normalize_room_token t = "с/зал".toList
  · rw [if_pos hsz]
    constructor
    · intro h
      injection h with h'
      exact ⟨t, ht, by rw [← h', hsz], by rw [← h']; exact Or.inr (Or.inl rfl)⟩
    · rintro ⟨t', ht', hr, -⟩
      rw [ht] at ht'
      injection ht' with e1
      rw [hr, ← e1, hsz]
  rw [if_neg hsz]
  by_cases hdig : 1 ≤ (normalize_room_token t).length ∧
      (normalize_room_token t).length ≤ 5 ∧
      (normalize_room_token t).all Char.isDigit
  · rw [if_pos hdig]
    constructor
    · intro h
      injection h with h'
      exact ⟨t, ht, h'.symm, by rw [← h']; exact Or.inr (Or.inr hdig)⟩
    · rintro ⟨t', ht', hr, -⟩
      rw [ht] at ht'
      injection ht' with e1
      rw [hr, ← e1]
  rw [if_neg hdig]
  constructor
  · intro h
    simp at h
  · rintro ⟨t', ht', hr, hshape⟩
    rw [ht] at ht'
    injection ht' with e1
    subst e1
    rw [hr] at hshape
    rcases hshape with hs1 | hs2 | hs3
    · exact absurd hs1 hdo
    · exact absurd hs2 hsz
    · exact absurd hs3 hdig

/-- C7. The room validator accepts exactly when exactly one token
remains from `start_idx` on and its normalization (lower-cased, backslash
replaced by slash) is a 1–5 digit string or one of the symbolic rooms
`"д/о"` and `"с/зал"`; it then returns the normalized token.  In every
other case it returns an error message and no room. -/
theorem room_validator_correct (tokens : List (List Char)) (start_idx : Nat) :
    (∀ r, parse_room_from_tokens tokens start_idx = .ok r ↔
      ∃ t, tokens.drop start_idx = [t] ∧ r = normalize_room_token t ∧ roomShapeOk r) ∧
    ((¬ ∃ t, tokens.drop start_idx = [t] ∧ roomShapeOk (normalize_room_token t)) →
      ∃ e, parse_room_from_tokens tokens start_idx = .error e) := by
  refine ⟨fun r => parse_room_ok_iff tokens start_idx r, ?_⟩
  intro hnot
  cases hres : parse_room_from_tokens tokens start_idx with
  | ok r =>
    exfalso
    obtain ⟨t, ht, hr, hok⟩ := (parse_room_ok_iff tokens start_idx r).mp hres
    exact hnot ⟨t, ht, hr ▸ hok⟩
  | error e => exact ⟨e, rfl⟩

theorem room_validator_correct_witness :
    parse_room_from_tokens ["101".toList] 0 = .ok ("101".toList) :=
  ((room_validator_correct ["101".toList] 0).1 _).mpr
    ⟨"101".toList, rfl, rfl, by decide⟩

/-- C6. The trailing tail after `)`: an empty tail is rejected; a tail
whose first token is a parity alias succeeds exactly when one more token
follows and is a valid room; a tail whose first token is not a parity alias
succeeds exactly when it is that single token and it is a valid room.  In
particular a two-token tail with a non-parity first token is rejected with
the room validator's one-word message. -/
theorem add_lesson_tail_rule :
    parseTail [] = .error msgNoRoomAfterBrackets ∧
    (∀ after parity room, parseTail after = .ok (parity, room) ↔
      ((∃ t0 t1 p, splitWS after = [t0, t1] ∧ detect_parity t0 = some p ∧
          parity = some p ∧ room = normalize_room_token t1 ∧ roomShapeOk room) ∨
       (∃ t0, splitWS after = [t0] ∧ detect_parity t0 = none ∧
          parity = none ∧ room = normalize_room_token t0 ∧ roomShapeOk room))) ∧
    (∀ after t0 t1, splitWS after = [t0, t1] → detect_parity t0 = none →
      parseTail after = .error msgRoomOneWord) := by
  refine ⟨rfl, ?_, ?_⟩
  · intro after parity room
    by_cases hemp : after = []
    · subst hemp
      constructor
      · intro h
        simp [parseTail] at h
      · rintro (⟨t0, t1, p, hsp, -⟩ | ⟨t0, hsp, -⟩) <;> simp [splitWS, splitWSAux] at hsp
    rw [parseTail, if_neg hemp]
    cases hsp : splitWS after with
    | nil =>
      dsimp only
      constructor
      · intro h
        simp at h
      · rintro (⟨t0, t1, p, hsp2, -⟩ | ⟨t0, hsp2, -⟩) <;> simp [hsp] at hsp2
    | cons t0 rest =>
      dsimp only
      cases hp : detect_parity t0 with
      | some p0 =>
        dsimp only
        cases hr : parse_room_from_tokens (t0 :: rest) 1 with
        | ok room0 =>
          dsimp only
          obtain ⟨t, ht, hr2, hshape⟩ := (parse_room_ok_iff _ 1 _).mp hr
          rw [show (t0 :: rest).drop 1 = rest from rfl] at ht
          constructor
          · intro h
            injection h with h'
            injection h' with hpar hroom
            refine Or.inl ⟨t0, t, p0, ?_, hp, hpar.symm, by rw [← hroom, hr2], ?_⟩
            · rw [ht]
            · rw [← hroom]
              exact hshape
          · rintro (⟨t0', t1', p', hsp2, hp', hpar, hroom, -⟩ | ⟨t0', hsp2, hp', -⟩)
            · injection hsp2 with e1 e2
              subst e1
              rw [ht] at e2
              injection e2 with e3
              rw [hp] at hp'
              injection hp' with e4
              rw [hpar, ← e4, hroom, ← e3, ← hr2]
            · injection hsp2 with e1 e2
              subst e1
              rw [hp] at hp'
              simp at hp'
        | error e =>
          dsimp only
          constructor
          · intro h
            simp at h
          · rintro (⟨t0', t1', p', hsp2, hp', hpar, hroom, hshape⟩ | ⟨t0', hsp2, hp', -⟩)
            · injection hsp2 with e1 e2
              subst e1
              have hok : parse_room_from_tokens (t0 :: rest) 1 = .ok (normalize_room_token t1') :=
                (parse_room_ok_iff _ 1 _).mpr
                  ⟨t1', by rw [show (t0 :: rest).drop 1 = rest from rfl, e2], rfl,
                    hroom ▸ hshape⟩
              rw [hr] at hok
              simp at hok
            · injection hsp2 with e1 e2
              subst e1
              rw [hp] at hp'
              simp at hp'
      | none =>
        dsimp only
        cases hr : parse_room_from_tokens (t0 :: rest) 0 with
        | ok room0 =>
          dsimp only
          obtain ⟨t, ht, hr2, hshape⟩ := (parse_room_ok_iff _ 0 _).mp hr
          rw [List.drop_zero] at ht
          injection ht with e1 e2
          subst e1
          subst e2
          constructor
          · intro h
            injection h with h'
            injection h' with hpar hroom
            exact Or.inr ⟨t0, rfl, hp, hpar.symm, by rw [← hroom, hr2], by rw [← hroom]; exact hshape⟩
          · rintro (⟨t0', t1', p', hsp2, hp', -⟩ | ⟨t0', hsp2, hp', hpar, hroom, -⟩)
            · injection hsp2 with e1 e2
              subst e1
              simp at e2
            · injection hsp2 with e1 e2
              subst e1
              rw [hpar, hroom, ← hr2]
        | error e =>
          dsimp only
          constructor
          · intro h
            simp at h
          · rintro (⟨t0', t1', p', hsp2, hp', -⟩ | ⟨t0', hsp2, hp', hpar, hroom, hshape⟩)
            · injection hsp2 with e1 e2
              subst e1
              rw [hp] at hp'
              simp at hp'
            · injection hsp2 with e1 e2
              subst e1
              have hok : parse_room_from_tokens (t0 :: rest) 0 = .ok (normalize_room_token t0) :=
                (parse_room_ok_iff _ 0 _).mpr
                  ⟨t0, by rw [List.drop_zero, e2], rfl, hroom ▸ hshape⟩
              rw [hr] at hok
              simp at hok
  · intro after t0 t1 hsp hpnone
    have hemp : after ≠ [] := by
      rintro rfl
      simp [splitWS, splitWSAux] at hsp
    rw [parseTail, if_neg hemp, hsp]
    dsimp only
    rw [hpnone]
    dsimp only
    have hone : parse_room_from_tokens [t0, t1] 0 = .error msgRoomOneWord := by
      rw [parse_room_from_tokens, if_neg (by simp), if_pos (by simp)]
    rw [hone]

theorem add_lesson_tail_rule_witness :
    parseTail ("н/н 101".toList) = .ok (some ("odd".toList), "101".toList) :=
  (add_lesson_tail_rule.2.1 ("н/н 101".toList) _ _).mpr
    (Or.inl ⟨"н/н".toList, "101".toList, "odd".toList, by decide, by decide, rfl, rfl,
      by decide⟩)

/-!
Structure of a successful `add_lesson` parse (C3, C9, C10).
-/

theorem parse_add_ok_elim {args g d : List Char} {s : Int} {lesson : Lesson}
    (h : parse_add_lesson_args args = .ok (g, d, s, lesson)) :
    ∃ slot title weeks_raw after parity room,
      pyInt ((splitWS args).getD 2 []) = some slot ∧
      splitBrackets (addLessonTail args ((splitWS args).getD 2 []) slot) =
        some (title, weeks_raw, after) ∧
      parseTail after = .ok (parity, room) ∧
      g = (splitWS args).getD 0 [] ∧ d = pyLower ((splitWS args).getD 1 []) ∧
      s = slot ∧ lesson = buildLesson title weeks_raw parity room := by
  rw [parse_add_lesson_args] at h
  by_cases h4 : (splitWS args).length < 4
  · rw [if_pos h4] at h
    simp at h
  rw [if_neg h4] at h
  by_cases hday : pyLower ((splitWS args).getD 1 []) ∉ RU_WEEKDAYS
  · rw [if_pos hday] at h
    simp at h
  rw [if_neg hday] at h
  cases hint : pyInt ((splitWS args).getD 2 []) with
  | none =>
    rw [hint] at h
    simp at h
  | some slot =>
    rw [hint] at h
    dsimp only at h
    by_cases hslot : slot ∉ slotKeys
    · rw [if_pos hslot] at h
      simp at h
    rw [if_neg hslot] at h
    cases hbr : splitBrackets (addLessonTail args ((splitWS args).getD 2 []) slot) with
    | none =>
      rw [hbr] at h
      simp at h
    | some twa =>
      obtain ⟨title, weeks_raw, after⟩ := twa
      rw [hbr] at h
      dsimp only at h
      cases htl : parseTail after with
      | error e =>
        rw [htl] at h
        simp at h
      | ok pr =>
        obtain ⟨parity, room⟩ := pr
        rw [htl] at h
        dsimp only at h
        injection h with h2
        rw [Prod.mk.injEq, Prod.mk.injEq, Prod.mk.injEq] at h2
        obtain ⟨hg, hd, hs, hl⟩ := h2
        exact ⟨slot, title, weeks_raw, after, parity, room, rfl, hbr, htl,
          hg.symm, hd.symm, hs.symm, hl.symm⟩

/-- C3 (code bug). `parse_add_lesson_args` rebuilds the tail by
splitting `args` at the first occurrence of the slot token's text anywhere
in the string, so when the group name contains the slot digit the stored
title keeps the rest of the group, the day, and the slot token: on the
function's own docstring example the title is
`"1 понедельник 2 Алгебра"` rather than `"Алгебра"`. -/
theorem add_lesson_title_mangled :
    parse_add_lesson_args ("ИВТ-21 понедельник 2 Алгебра(2-13) н/н 101".toList) =
      .ok ("ИВТ-21".toList, "понедельник".toList, 2,
        { title := "1 понедельник 2 Алгебра".toList, room := "101".toList,
          weeks_spec := "2-13".toList,
          weeks := [2, 3, 4, 5, 6, 7, 8, 9, 10, 11, 12, 13],
          parity := some ("odd".toList) }) ∧
      "1 понедельник 2 Алгебра".toList ≠ "Алгебра".toList :=
  ⟨rfl, by decide⟩

/-- C9 (amended). For every successfully parsed add-lesson command the
stored `weeks_spec` is the trimmed text between the parentheses when that
text is nonempty, and the literal `"1-30"` when it is empty
(`weeks_raw or "1-30"` in the source). -/
theorem weeks_spec_value (args : List Char) (g d : List Char) (s : Int) (lesson : Lesson)
    (h : parse_add_lesson_args args = .ok (g, d, s, lesson)) :
    ∃ slot title weeks_raw after,
      pyInt ((splitWS args).getD 2 []) = some slot ∧
      splitBrackets (addLessonTail args ((splitWS args).getD 2 []) slot) =
        some (title, weeks_raw, after) ∧
      lesson.weeks_spec = (if weeks_raw = [] then "1-30".toList else weeks_raw) := by
  obtain ⟨slot, title, weeks_raw, after, parity, room, hint, hbr, htl, hg, hd2, hs2, hl⟩ :=
    parse_add_ok_elim h
  exact ⟨slot, title, weeks_raw, after, hint, hbr, by rw [hl]; rfl⟩

theorem weeks_spec_value_witness :
    ∃ slot title weeks_raw after,
      pyInt ((splitWS ("ИВТ вторник 1 Физика(2-4,10) 202".toList)).getD 2 []) = some slot ∧
      splitBrackets (addLessonTail ("ИВТ вторник 1 Физика(2-4,10) 202".toList)
        ((splitWS ("ИВТ вторник 1 Физика(2-4,10) 202".toList)).getD 2 []) slot) =
        some (title, weeks_raw, after) ∧
      ({ title := "Физика".toList, room := "202".toList, weeks_spec := "2-4,10".toList,
         weeks := [2, 3, 4, 10], parity := none } : Lesson).weeks_spec =
        (if weeks_raw = [] then "1-30".toList else weeks_raw) :=
  weeks_spec_value _ ("ИВТ".toList) ("вторник".toList) 1 _ rfl

/-- C9 counterexample. With an empty recurrence text the stored
`weeks_spec` is the substituted string `"1-30"`, not the original empty
text: the claim as stated fails on `"ИВТ понедельник 2 Физика() 101"`. -/
theorem weeks_spec_value_ce :
    parse_add_lesson_args ("ИВТ понедельник 2 Физика() 101".toList) =
      .ok ("ИВТ".toList, "понедельник".toList, 2,
        { title := "Физика".toList, room := "101".toList,
          weeks_spec := "1-30".toList, weeks := rangeList 30, parity := none }) ∧
      "1-30".toList ≠ ([] : List Char) :=
  ⟨rfl, by decide⟩

/-- C10. Every week list produced by `parse_weeks` with horizon 30 — in
particular the week list of every lesson built by a successful add-lesson
parse — stays within `[1, 30]`, so past week 30 no such lesson ever
matches. -/
theorem add_lesson_horizon :
    (∀ spec : List Char, ∀ w : Int, w ∈ parse_weeks spec 30 → 1 ≤ w ∧ w ≤ 30) ∧
    (∀ args g d : List Char, ∀ s : Int, ∀ lesson : Lesson,
      parse_add_lesson_args args = .ok (g, d, s, lesson) →
      ∀ wk : Int, 30 < wk → lesson_matches_week lesson wk = false) := by
  constructor
  · exact fun spec w hw => parse_weeks_bounds spec 30 w hw
  · intro args g d s lesson h wk hwk
    obtain ⟨slot, title, weeks_raw, after, parity, room, hint, hbr, htl, hg, hd2, hs2, hl⟩ :=
      parse_add_ok_elim h
    have hweeks : lesson.weeks = parse_weeks weeks_raw 30 := by
      rw [hl]
      rfl
    have hnotmem : wk ∉ lesson.weeks := by
      rw [hweeks]
      intro hmem
      have := parse_weeks_bounds weeks_raw 30 wk hmem
      omega
    rw [lesson_matches_week, if_neg (by omega : ¬ wk ≤ 0), if_pos hnotmem]

theorem storePop_none {st : Schedules} {g d sk : List Char}
    (h : storeLookup st g d sk = none) : storePop st g d sk = none := by
  rw [storeLookup] at h
  rw [storePop]
  cases h1 : alookup g st with
  | none => rfl
  | some gd =>
    rw [h1, Option.some_bind] at h
    dsimp only
    cases h2 : alookup d gd with
    | none => rfl
    | some dd =>
      rw [h2, Option.some_bind] at h
      dsimp only
      rw [h]

/-- C8. A delete request whose validated `(group, day, slot)` key holds
no stored lesson replies with the "not found" message and does not invoke
`save_schedules` (second component `none`), leaving the persisted schedule
document unchanged. -/
theorem del_lesson_missing (args : List Char) (store : Schedules)
    (g d : List Char) (slot : Int)
    (hp : del_lesson_parse args = .ok (g, d, slot))
    (habs : storeLookup store g d (intStr slot) = none) :
    del_lesson args store = (msgNotFound, none) := by
  rw [del_lesson, hp]
  dsimp only
  rw [storePop_none habs]

theorem del_lesson_missing_witness :
    del_lesson ("ИВТ понедельник 2".toList) [] = (msgNotFound, none) :=
  del_lesson_missing _ [] ("ИВТ".toList) ("понедельник".toList) 2 rfl rfl

theorem add_lesson_horizon_witness :
    (1 ≤ (5 : Int) ∧ (5 : Int) ≤ 30) ∧
      lesson_matches_week
        { title := "Физика".toList, room := "202".toList, weeks_spec := "2-4,10".toList,
          weeks := [2, 3, 4, 10], parity := none } 31 = false :=
  ⟨add_lesson_horizon.1 ("5".toList) 5 (by decide),
   add_lesson_horizon.2 ("ИВТ вторник 1 Физика(2-4,10) 202".toList) _ _ _ _ rfl 31
     (by norm_num)⟩
